import Mathlib

/-!
Shallow embedding of `src/pt_br_spell_corrector.py` (an n-gram based
Brazilian-Portuguese spell checker) and proofs about it.

Modelling conventions:
* a Python string is a `List Char` (`Word` below);
* Python's `float` score `2 * C / (A + B)` is modelled exactly as a rational;
* Python runtime errors (`ZeroDivisionError` in `edit_distance`, `ValueError`
  from `max(...)` on an empty dict) are modelled with `Except CheckerError`;
* the Python dict `{word: routine(word) for word in words}` keeps the first
  occurrence position of each key (later duplicates overwrite the value but
  keep the position; the value is a pure function of the key, so it is the
  same), which `firstOccurrences` reproduces.
-/

/-- A word (Python string) is a list of characters. -/
abbrev Word := List Char

/-- Embedding of `remove_repetitive_ngrams`'s loop.  `full` is the whole input
list (Python's `ngrams`, captured by `ngrams.count(ngram)`), the first explicit
argument is the remaining suffix being iterated, then the accumulators
`unique_ngrams` and `seen_ngrams`. -/
def rrLoop {α : Type} [DecidableEq α] (full : List α) :
    List α → List α → List α → List α
  | [], unique_ngrams, _ => unique_ngrams
  | g :: rest, unique_ngrams, seen =>
    if full.count g = 1 ∧ g ∉ seen
    then rrLoop full rest (unique_ngrams ++ [g]) (seen ++ [g])
    else rrLoop full rest unique_ngrams seen

/-- Embedding of `remove_repetitive_ngrams(ngrams)` (src lines 51-74): keep, in
first-seen order, the elements whose total occurrence count in the input is 1,
tracking a `seen` set exactly as the source does. -/
def remove_repetitive_ngrams {α : Type} [DecidableEq α] (ngrams : List α) : List α :=
  rrLoop ngrams ngrams [] []

/-- Embedding of `ngrams_generator(string, n=2)` (src lines 77-97):
`[string[i : i + n] for i in range(len(string) - n + 1)]`.  Python's
`range` of a non-positive bound is empty, hence the `Int` subtraction
followed by `toNat`. -/
def ngrams_generator (string : Word) (n : Nat := 2) : List Word :=
  (List.range (((string.length : Int) - (n : Int) + 1).toNat)).map
    (fun i => (string.drop i).take n)

/-- The per-word record built by `SyntaxSimilarity._routine` (src lines 115-124). -/
structure Profile where
  ngrams : List Word
  without_repetitive_ngrams : List Word
  ngrams_size : Nat
  B : Nat
deriving DecidableEq, Repr

/-- Embedding of `SyntaxSimilarity._routine(word)` with the configured `n`
(src lines 115-124). -/
def routine (n : Nat) (word : Word) : Profile :=
  let ngrams := ngrams_generator word n
  let ngrams_without_repetitive_elements := remove_repetitive_ngrams ngrams
  { ngrams := ngrams
    without_repetitive_ngrams := ngrams_without_repetitive_elements
    ngrams_size := ngrams.length
    B := ngrams_without_repetitive_elements.length }

/-- First occurrence of each element, in order: the key order of a Python dict
built by comprehension over a list with possible duplicates. -/
def firstOccurrences {α : Type} [DecidableEq α] : List α → List α
  | [] => []
  | a :: rest => a :: (firstOccurrences rest).filter (fun b => b ≠ a)

/-- Embedding of the index `SyntaxSimilarity.__init__` builds
(`self._words = {word: self._routine(word=word) for word in words}`,
src line 144): an association list in dict iteration order. -/
def buildIndex (words : List Word) (n : Nat) : List (Word × Profile) :=
  (firstOccurrences words).map (fun w => (w, routine n w))

/-- Runtime failures of `pt_br_spell_checker`: Python's `ZeroDivisionError`
from `edit_distance` and the `ValueError` that `max` raises on an empty
sequence. -/
inductive CheckerError where
  | divisionByZero
  | emptyIndex
deriving DecidableEq, Repr

/-- Embedding of `len(set(xs) & set(ys))`: the number of distinct elements of
`xs` that also occur in `ys`. -/
def setInterCard (xs ys : List Word) : Nat :=
  (xs.dedup.filter (fun g => g ∈ ys)).length

/-- Embedding of `SyntaxSimilarity.edit_distance(A, B, C)` (src lines 149-150)
in the non-failing case `A + B ≠ 0`; the failing case is checked by the caller
`scoreLoop`. -/
def edit_distance (A B C : Nat) : ℚ :=
  2 * (C : ℚ) / ((A : ℚ) + (B : ℚ))

/-- The score `pt_br_spell_checker` assigns to a stored profile `p`, given the
unique n-gram list `qu` of the query and its length `A`. -/
def rawScore (A : Nat) (qu : List Word) (p : Profile) : ℚ :=
  edit_distance A p.B (setInterCard qu p.without_repetitive_ngrams)

/-- Embedding of the scoring loop of `pt_br_spell_checker` (src lines 167-174):
walk the index in order and record `(word, 2*C/(A+B))`; a comparison with
`A + B = 0` raises `ZeroDivisionError` at that point, so the first such
candidate aborts the loop. -/
def scoreLoop (A : Nat) (qu : List Word) :
    List (Word × Profile) → Except CheckerError (List (Word × ℚ))
  | [] => .ok []
  | (word, p) :: rest =>
    if A + p.B = 0 then .error .divisionByZero
    else match scoreLoop A qu rest with
      | .error e => .error e
      | .ok tail => .ok ((word, rawScore A qu p) :: tail)

/-- Embedding of `max(result, key=result.get)` over the association list
`result` (src line 176): Python's `max` returns the first element attaining
the maximum, and raises on an empty sequence (`none` here). -/
def argmaxFirst : List (Word × ℚ) → Option (Word × ℚ)
  | [] => none
  | (w, s) :: rest =>
    match argmaxFirst rest with
    | none => some (w, s)
    | some (w2, s2) => if s < s2 then some (w2, s2) else some (w, s)

/-- The local `ngrams_input_word_without_repetitive_elements` of
`pt_br_spell_checker` (src lines 160-163): the unique n-gram list of the
query, computed - exactly as in the source - by `ngrams_generator` with its
DEFAULT `n = 2`, regardless of the `n` the index was built with. -/
def queryUnique (q : Word) : List Word :=
  remove_repetitive_ngrams (ngrams_generator q)

/-- The local `A` of `pt_br_spell_checker` (src line 165): the unique n-gram
count of the query profile. -/
def queryA (q : Word) : Nat := (queryUnique q).length

/-- Embedding of `SyntaxSimilarity.pt_br_spell_checker(input_word)`
(src lines 152-179): score every indexed word against the query profile
(`queryUnique` / `queryA`, with the generator's default `n = 2` as in the
source), then pick the first maximum; the empty index makes `max` raise. -/
def pt_br_spell_checker (index : List (Word × Profile)) (input_word : Word) :
    Except CheckerError (Word × ℚ) :=
  match scoreLoop (queryA input_word) (queryUnique input_word) index with
  | .error e => .error e
  | .ok result =>
    match argmaxFirst result with
    | none => .error .emptyIndex
    | some best => .ok best

/-- Modelled from the spec: the variant of `pt_br_spell_checker` in which the
n-gram length is "used consistently for both index construction and query
profiling" (spec section 6): identical to `pt_br_spell_checker` except that
the query profile is computed with the index's `n`.  Used only to compare the
consistency claim with the source behaviour. -/
def pt_br_spell_checker_consistent (n : Nat) (index : List (Word × Profile))
    (input_word : Word) : Except CheckerError (Word × ℚ) :=
  match scoreLoop (remove_repetitive_ngrams (ngrams_generator input_word n)).length
      (remove_repetitive_ngrams (ngrams_generator input_word n)) index with
  | .error e => .error e
  | .ok result =>
    match argmaxFirst result with
    | none => .error .emptyIndex
    | some best => .ok best

/-- The Dice-style score the matcher assigns to a stored profile for query
`q`: `2*C/(A+B)` with `A`, `B`, `C` as in the source. -/
def diceScore (q : Word) (p : Profile) : ℚ :=
  rawScore (queryA q) (queryUnique q) p

/-! Helper lemmas. -/

/-- The loop of `remove_repetitive_ngrams` appends to `unique_ngrams` exactly
the elements of the remaining suffix whose count in the full list is 1,
provided the suffix's counts are dominated by the full list's and nothing
countable as unique is already in `seen`. -/
lemma rrLoop_eq_filter {α : Type} [DecidableEq α] (full : List α) :
    ∀ (l u seen : List α),
      (∀ g, l.count g ≤ full.count g) →
      (∀ g ∈ l, full.count g = 1 → g ∉ seen) →
      rrLoop full l u seen = u ++ l.filter (fun g => full.count g = 1)
  | [], u, seen, _, _ => by simp [rrLoop]
  | g :: rest, u, seen, hcnt, hinv => by
    have hrest_cnt : ∀ x, rest.count x ≤ full.count x := fun x =>
      le_trans (by rw [List.count_cons]; exact Nat.le_add_right _ _) (hcnt x)
    by_cases hg : full.count g = 1
    · have hgseen : g ∉ seen := hinv g (List.mem_cons_self g rest) hg
      have hgrest : g ∉ rest := by
        intro hmem
        have h1 : 0 < rest.count g := List.count_pos_iff.mpr hmem
        have h2 := hcnt g
        rw [List.count_cons_self] at h2
        omega
      rw [rrLoop, if_pos ⟨hg, hgseen⟩,
        rrLoop_eq_filter full rest (u ++ [g]) (seen ++ [g]) hrest_cnt ?_]
      · simp [List.filter_cons, hg]
      · intro x hx hx1 hxmem
        rcases List.mem_append.mp hxmem with h | h
        · exact hinv x (List.mem_cons_of_mem g hx) hx1 h
        · rw [List.mem_singleton] at h
          subst h
          exact hgrest hx
    · have hcond : ¬ (full.count g = 1 ∧ g ∉ seen) := fun h => hg h.1
      rw [rrLoop, if_neg hcond,
        rrLoop_eq_filter full rest u seen hrest_cnt
          (fun x hx hx1 => hinv x (List.mem_cons_of_mem g hx) hx1)]
      simp [List.filter_cons, hg]

/-- The `seen` set of the source loop is redundant: `remove_repetitive_ngrams`
keeps exactly the elements of total count 1, in order. -/
lemma remove_repetitive_ngrams_eq_filter {α : Type} [DecidableEq α] (ngrams : List α) :
    remove_repetitive_ngrams ngrams = ngrams.filter (fun g => ngrams.count g = 1) := by
  have h := rrLoop_eq_filter ngrams ngrams [] []
    (fun g => le_refl _) (by intro g _ _ hmem; exact (List.not_mem_nil g) hmem)
  simpa [remove_repetitive_ngrams] using h

/-- Every element of the output of `remove_repetitive_ngrams` occurs exactly
once in the input. -/
lemma count_eq_one_of_mem_remove_repetitive {α : Type} [DecidableEq α]
    {ngrams : List α} {g : α} (h : g ∈ remove_repetitive_ngrams ngrams) :
    ngrams.count g = 1 := by
  rw [remove_repetitive_ngrams_eq_filter] at h
  have := (List.mem_filter.mp h).2
  simpa using this

/-- The output of `remove_repetitive_ngrams` has no duplicates. -/
lemma remove_repetitive_ngrams_nodup {α : Type} [DecidableEq α] (ngrams : List α) :
    (remove_repetitive_ngrams ngrams).Nodup := by
  rw [List.nodup_iff_count_le_one]
  intro g
  by_cases hmem : g ∈ remove_repetitive_ngrams ngrams
  · have h1 := count_eq_one_of_mem_remove_repetitive hmem
    calc (remove_repetitive_ngrams ngrams).count g
        ≤ ngrams.count g := by
          rw [remove_repetitive_ngrams_eq_filter]
          exact (List.filter_sublist ngrams).count_le g
      _ = 1 := h1
  · rw [List.count_eq_zero_of_not_mem hmem]
    omega


/-- Unfolding lemma for `scoreLoop` on a cons cell. -/
lemma scoreLoop_cons (A : Nat) (qu : List Word) (w : Word) (p : Profile)
    (rest : List (Word × Profile)) :
    scoreLoop A qu ((w, p) :: rest) =
      if A + p.B = 0 then .error .divisionByZero
      else match scoreLoop A qu rest with
        | .error e => .error e
        | .ok tail => .ok ((w, rawScore A qu p) :: tail) := rfl

/-- When no comparison divides by zero, the scoring loop records exactly the
formula score for every indexed word, in index order. -/
lemma scoreLoop_ok_of_pos (A : Nat) (qu : List Word) :
    ∀ index : List (Word × Profile),
      (∀ wp ∈ index, A + wp.2.B ≠ 0) →
      scoreLoop A qu index = .ok (index.map (fun wp => (wp.1, rawScore A qu wp.2)))
  | [], _ => rfl
  | (w, p) :: rest, h => by
    have hp : ¬ (A + p.B = 0) := h (w, p) (List.mem_cons_self _ _)
    rw [scoreLoop_cons, if_neg hp,
      scoreLoop_ok_of_pos A qu rest (fun wp hwp => h wp (List.mem_cons_of_mem _ hwp))]
    rfl

/-- Conversely, if the scoring loop succeeds then no comparison divided by
zero and the result is the formula score of every indexed word, in order. -/
lemma scoreLoop_ok_inv (A : Nat) (qu : List Word) :
    ∀ (index : List (Word × Profile)) (result : List (Word × ℚ)),
      scoreLoop A qu index = .ok result →
      result = index.map (fun wp => (wp.1, rawScore A qu wp.2)) ∧
      ∀ wp ∈ index, A + wp.2.B ≠ 0
  | [], result, h => by
    have h' : (Except.ok [] : Except CheckerError (List (Word × ℚ))) = .ok result := h
    have h'' : ([] : List (Word × ℚ)) = result := by injection h'
    exact ⟨h''.symm, by simp⟩
  | (w, p) :: rest, result, h => by
    rw [scoreLoop_cons] at h
    by_cases hp : A + p.B = 0
    · rw [if_pos hp] at h
      exact absurd h (by simp)
    · rw [if_neg hp] at h
      cases hrest : scoreLoop A qu rest with
      | error e => rw [hrest] at h; exact absurd h (by simp)
      | ok tail =>
        rw [hrest] at h
        have hres : Except.ok ((w, rawScore A qu p) :: tail) = Except.ok result := h
        have hres' : (w, rawScore A qu p) :: tail = result := by injection hres
        have htail := scoreLoop_ok_inv A qu rest tail hrest
        constructor
        · rw [← hres', htail.1]
          rfl
        · intro wp hwp
          rcases List.mem_cons.mp hwp with h' | h'
          · rw [h']; exact hp
          · exact htail.2 wp h'

/-- If some comparison has `A + B = 0`, the scoring loop raises the
division-by-zero error (at the first such candidate). -/
lemma scoreLoop_error_of_zero (A : Nat) (qu : List Word) :
    ∀ index : List (Word × Profile),
      (∃ wp ∈ index, A + wp.2.B = 0) →
      scoreLoop A qu index = .error .divisionByZero
  | [], h => absurd h (by rintro ⟨wp, hmem, -⟩; exact List.not_mem_nil wp hmem)
  | (w, p) :: rest, h => by
    by_cases hp : A + p.B = 0
    · rw [scoreLoop_cons, if_pos hp]
    · obtain ⟨wp, hmem, hz⟩ := h
      have hwp_rest : wp ∈ rest := by
        rcases List.mem_cons.mp hmem with h' | h'
        · subst h'; exact absurd hz hp
        · exact h'
      rw [scoreLoop_cons, if_neg hp,
        scoreLoop_error_of_zero A qu rest ⟨wp, hwp_rest, hz⟩]

/-- Unfolding lemma for `argmaxFirst` on a cons cell. -/
lemma argmaxFirst_cons (w : Word) (s : ℚ) (rest : List (Word × ℚ)) :
    argmaxFirst ((w, s) :: rest) =
      match argmaxFirst rest with
      | none => some (w, s)
      | some (w2, s2) => if s < s2 then some (w2, s2) else some (w, s) := rfl

/-- `argmaxFirst` answers `none` only on the empty list. -/
lemma argmaxFirst_eq_none {l : List (Word × ℚ)} (h : argmaxFirst l = none) :
    l = [] := by
  cases l with
  | nil => rfl
  | cons x r =>
    rcases x with ⟨w, s⟩
    rw [argmaxFirst_cons] at h
    cases hr : argmaxFirst r with
    | none =>
      rw [hr] at h
      exact absurd h (by simp)
    | some b2 =>
      rcases b2 with ⟨w2, s2⟩
      rw [hr] at h
      have h' : (if s < s2 then some (w2, s2) else some (w, s)) = none := h
      by_cases hlt : s < s2
      · rw [if_pos hlt] at h'; exact absurd h' (by simp)
      · rw [if_neg hlt] at h'; exact absurd h' (by simp)

/-- `argmaxFirst` returns the first element attaining the maximum: everything
before it is strictly smaller, everything after it is no larger. -/
lemma argmaxFirst_spec :
    ∀ (l : List (Word × ℚ)) (b : Word × ℚ), argmaxFirst l = some b →
      ∃ l1 l2, l = l1 ++ b :: l2 ∧ (∀ p ∈ l1, p.2 < b.2) ∧ (∀ p ∈ l2, p.2 ≤ b.2)
  | [], b, h => by simp [argmaxFirst] at h
  | (w, s) :: rest, b, h => by
    rw [argmaxFirst_cons] at h
    cases hr : argmaxFirst rest with
    | none =>
      rw [hr] at h
      have hrest := argmaxFirst_eq_none hr
      subst hrest
      have hb : (w, s) = b := by simpa using h
      exact ⟨[], [], by rw [← hb]; rfl, by simp, by simp⟩
    | some b2 =>
      rcases b2 with ⟨w2, s2⟩
      rw [hr] at h
      have h' : (if s < s2 then some (w2, s2) else some (w, s)) = some b := h
      obtain ⟨m1, m2, hrest, hm1, hm2⟩ := argmaxFirst_spec rest (w2, s2) hr
      by_cases hlt : s < s2
      · rw [if_pos hlt] at h'
        have hb : (w2, s2) = b := by simpa using h'
        subst hb
        refine ⟨(w, s) :: m1, m2, by simp [hrest], ?_, hm2⟩
        intro p hp
        rcases List.mem_cons.mp hp with h'' | h''
        · rw [h'']; exact hlt
        · exact hm1 p h''
      · rw [if_neg hlt] at h'
        have hb : (w, s) = b := by simpa using h'
        subst hb
        refine ⟨[], rest, by simp, by simp, ?_⟩
        intro p hp
        have hs2 : s2 ≤ s := le_of_not_lt hlt
        rw [hrest] at hp
        rcases List.mem_append.mp hp with h'' | h''
        · exact le_trans (le_of_lt (hm1 p h'')) hs2
        · rcases List.mem_cons.mp h'' with h3 | h3
          · rw [h3]; exact hs2
          · exact le_trans (hm2 p h3) hs2

/-- The element `argmaxFirst` returns belongs to the list. -/
lemma argmaxFirst_mem {l : List (Word × ℚ)} {b : Word × ℚ}
    (h : argmaxFirst l = some b) : b ∈ l := by
  obtain ⟨l1, l2, hl, -, -⟩ := argmaxFirst_spec l b h
  rw [hl]
  simp

/-- The element `argmaxFirst` returns has the maximal score. -/
lemma argmaxFirst_le {l : List (Word × ℚ)} {b : Word × ℚ}
    (h : argmaxFirst l = some b) : ∀ p ∈ l, p.2 ≤ b.2 := by
  obtain ⟨l1, l2, hl, h1, h2⟩ := argmaxFirst_spec l b h
  intro p hp
  rw [hl] at hp
  rcases List.mem_append.mp hp with h' | h'
  · exact le_of_lt (h1 p h')
  · rcases List.mem_cons.mp h' with h'' | h''
    · rw [h'']
    · exact h2 p h''

/-- `argmaxFirst` succeeds on any non-empty list. -/
lemma argmaxFirst_cons_isSome (x : Word × ℚ) (l : List (Word × ℚ)) :
    ∃ b, argmaxFirst (x :: l) = some b := by
  rcases x with ⟨w, s⟩
  rw [argmaxFirst_cons]
  cases hr : argmaxFirst l with
  | none => exact ⟨(w, s), rfl⟩
  | some b2 =>
    rcases b2 with ⟨w2, s2⟩
    by_cases hlt : s < s2
    · refine ⟨(w2, s2), ?_⟩
      show (if s < s2 then some (w2, s2) else some (w, s)) = some (w2, s2)
      rw [if_pos hlt]
    · refine ⟨(w, s), ?_⟩
      show (if s < s2 then some (w2, s2) else some (w, s)) = some (w, s)
      rw [if_neg hlt]

/-- Success characterization of the matcher: it succeeds with `(w, s)` iff
the scoring loop succeeds and `argmaxFirst` picks `(w, s)`. -/
lemma pt_br_spell_checker_ok_iff (index : List (Word × Profile)) (q : Word)
    (w : Word) (s : ℚ) :
    pt_br_spell_checker index q = .ok (w, s) ↔
      ∃ result, scoreLoop (queryA q) (queryUnique q) index = .ok result ∧
        argmaxFirst result = some (w, s) := by
  unfold pt_br_spell_checker
  cases hs : scoreLoop (queryA q) (queryUnique q) index with
  | error e => simp
  | ok result =>
    cases ha : argmaxFirst result with
    | none => simp [ha]
    | some best => simp [ha]

/-- `C = |set(xs) & set(ys)|` is at most the length of `xs`. -/
lemma setInterCard_le_left (xs ys : List Word) : setInterCard xs ys ≤ xs.length :=
  le_trans (List.length_filter_le _ _) (List.Sublist.length_le (List.dedup_sublist xs))

/-- `C = |set(xs) & set(ys)|` is at most the length of `ys`. -/
lemma setInterCard_le_right (xs ys : List Word) : setInterCard xs ys ≤ ys.length := by
  have hnd : (xs.dedup.filter (fun g => decide (g ∈ ys))).Nodup :=
    (List.nodup_dedup xs).filter _
  have hsub : ∀ g ∈ xs.dedup.filter (fun g => decide (g ∈ ys)), g ∈ ys := by
    intro g hg
    have := (List.mem_filter.mp hg).2
    simpa using this
  calc (xs.dedup.filter (fun g => decide (g ∈ ys))).length
      = (xs.dedup.filter (fun g => decide (g ∈ ys))).toFinset.card :=
        (List.toFinset_card_of_nodup hnd).symm
    _ ≤ ys.toFinset.card := Finset.card_le_card (fun g hg => by
        rw [List.mem_toFinset] at hg ⊢
        exact hsub g hg)
    _ ≤ ys.length := ys.toFinset_card_le

/-- Every score the matcher computes is non-negative. -/
lemma rawScore_nonneg (A : Nat) (qu : List Word) (p : Profile) :
    0 ≤ rawScore A qu p := by
  unfold rawScore edit_distance
  positivity

/-- When `A` is the length of the query's unique n-gram list, `B` dominates
the length of the candidate's unique n-gram list and `A + B ≠ 0`, the score
is at most 1 (since `C ≤ min(A, B)`). -/
lemma rawScore_le_one (A : Nat) (qu : List Word) (p : Profile)
    (hAq : A = qu.length)
    (hB : p.without_repetitive_ngrams.length ≤ p.B)
    (hpos : A + p.B ≠ 0) :
    rawScore A qu p ≤ 1 := by
  unfold rawScore edit_distance
  have hCA : setInterCard qu p.without_repetitive_ngrams ≤ A := by
    rw [hAq]; exact setInterCard_le_left qu _
  have hCB : setInterCard qu p.without_repetitive_ngrams ≤ p.B :=
    le_trans (setInterCard_le_right qu _) hB
  have hden : (0 : ℚ) < (A : ℚ) + (p.B : ℚ) := by
    have h0 : 0 < A + p.B := Nat.pos_of_ne_zero hpos
    exact_mod_cast h0
  rw [div_le_one hden]
  have h2 : 2 * setInterCard qu p.without_repetitive_ngrams ≤ A + p.B := by omega
  exact_mod_cast h2

/-- `firstOccurrences` preserves membership. -/
lemma mem_firstOccurrences {α : Type} [DecidableEq α] :
    ∀ (l : List α) (a : α), a ∈ l → a ∈ firstOccurrences l
  | [], a, h => absurd h (List.not_mem_nil a)
  | a' :: rest, a, h => by
    rw [firstOccurrences]
    by_cases hae : a = a'
    · rw [hae]; exact List.mem_cons_self _ _
    · have h' : a ∈ rest := by
        rcases List.mem_cons.mp h with h'' | h''
        · exact absurd h'' hae
        · exact h''
      apply List.mem_cons_of_mem
      rw [List.mem_filter]
      exact ⟨mem_firstOccurrences rest a h', by simpa using hae⟩

/-- Every corpus word appears in the index with its profile. -/
lemma mem_buildIndex (words : List Word) (n : Nat) (w : Word) (h : w ∈ words) :
    (w, routine n w) ∈ buildIndex words n := by
  unfold buildIndex
  rw [List.mem_map]
  exact ⟨w, mem_firstOccurrences words w h, rfl⟩

/-- Every index entry stores exactly the `routine` profile of its word. -/
lemma buildIndex_entry (words : List Word) (n : Nat) :
    ∀ wp ∈ buildIndex words n, wp.2 = routine n wp.1 := by
  intro wp hwp
  unfold buildIndex at hwp
  rw [List.mem_map] at hwp
  obtain ⟨w, -, heq⟩ := hwp
  rw [← heq]

/-- The `B` field of a `routine` profile is the length of its unique n-gram
list. -/
lemma routine_B_eq (n : Nat) (w : Word) :
    (routine n w).B = (routine n w).without_repetitive_ngrams.length := rfl

/-- Matching a word against its own profile scores exactly 1 when the word
has at least one unique n-gram. -/
lemma self_rawScore_eq_one (w : Word) (hA : 1 ≤ queryA w) :
    rawScore (queryA w) (queryUnique w) (routine 2 w) = 1 := by
  have hwrn : (routine 2 w).without_repetitive_ngrams = queryUnique w := rfl
  have hB : (routine 2 w).B = queryA w := rfl
  have hC : setInterCard (queryUnique w) (queryUnique w) = queryA w := by
    have hqnodup : (queryUnique w).Nodup := remove_repetitive_ngrams_nodup _
    unfold setInterCard queryA
    rw [List.dedup_eq_self.mpr hqnodup]
    rw [List.filter_eq_self.mpr (by intro a ha; simpa using ha)]
  unfold rawScore edit_distance
  rw [hwrn, hB, hC]
  have hApos : (0 : ℚ) < (queryA w : ℚ) := by exact_mod_cast hA
  have hne : (queryA w : ℚ) + (queryA w : ℚ) ≠ 0 := by linarith
  rw [div_eq_one_iff_eq hne]
  ring

/-! Concrete fixtures from the spec's worked examples. -/

/-- The corpus word "casa" of the spec's worked example. -/
def casa : Word := ['c', 'a', 's', 'a']

/-- The corpus word "caza" of the spec's worked example. -/
def caza : Word := ['c', 'a', 'z', 'a']

/-- The corpus word "vaca" of the spec's worked example. -/
def vaca : Word := ['v', 'a', 'c', 'a']

/-- The corpus `["casa", "caza", "vaca"]` of the spec's worked example. -/
def exampleCorpus : List Word := [casa, caza, vaca]

/-! The claims. -/

/-- C1: whenever `pt_br_spell_checker` succeeds it returns a pair `(w, s)`
such that `w` is indexed with some profile `p`, `s` is exactly the Dice-style
score `2*C/(A+B)` of `p` (`A` = unique n-gram count of the query profile,
`B` = stored unique n-gram count, `C` = cardinality of the set-intersection
of the two unique n-gram lists), and `s` is the maximum of that score over
all indexed words (linear scan, no pruning). -/
theorem C1_best_match_formula_and_max (index : List (Word × Profile)) (q : Word)
    (w : Word) (s : ℚ)
    (h : pt_br_spell_checker index q = .ok (w, s)) :
    (∃ p, (w, p) ∈ index ∧
        s = edit_distance (queryA q) p.B
              (setInterCard (queryUnique q) p.without_repetitive_ngrams)) ∧
    ∀ wp ∈ index,
      edit_distance (queryA q) wp.2.B
          (setInterCard (queryUnique q) wp.2.without_repetitive_ngrams) ≤ s := by
  obtain ⟨result, hs, ha⟩ := (pt_br_spell_checker_ok_iff index q w s).mp h
  obtain ⟨hres, -⟩ := scoreLoop_ok_inv _ _ index result hs
  subst hres
  constructor
  · have hmem := argmaxFirst_mem ha
    rw [List.mem_map] at hmem
    obtain ⟨wp, hwp, heq⟩ := hmem
    have h1 : wp.1 = w := congrArg Prod.fst heq
    have h2 : rawScore (queryA q) (queryUnique q) wp.2 = s := congrArg Prod.snd heq
    refine ⟨wp.2, ?_, h2.symm⟩
    have hpair : (w, wp.2) = wp := by rw [← h1]
    rw [hpair]
    exact hwp
  · intro wp hwp
    have hmem2 : (wp.1, rawScore (queryA q) (queryUnique q) wp.2) ∈
        index.map (fun wp => (wp.1, rawScore (queryA q) (queryUnique q) wp.2)) := by
      rw [List.mem_map]
      exact ⟨wp, hwp, rfl⟩
    exact argmaxFirst_le ha _ hmem2

/-- Witness for C1 at the spec's example corpus and query. -/
theorem C1_best_match_formula_and_max_witness :
    pt_br_spell_checker (buildIndex exampleCorpus 2) caza = .ok (caza, 1) ∧
    ((∃ p, (caza, p) ∈ buildIndex exampleCorpus 2 ∧
        (1 : ℚ) = edit_distance (queryA caza) p.B
              (setInterCard (queryUnique caza) p.without_repetitive_ngrams)) ∧
      ∀ wp ∈ buildIndex exampleCorpus 2,
        edit_distance (queryA caza) wp.2.B
            (setInterCard (queryUnique caza) wp.2.without_repetitive_ngrams) ≤ 1) := by
  have h : pt_br_spell_checker (buildIndex exampleCorpus 2) caza = .ok (caza, 1) := by
    norm_num +decide [pt_br_spell_checker, buildIndex, firstOccurrences, routine,
      ngrams_generator, remove_repetitive_ngrams, rrLoop, setInterCard, edit_distance,
      rawScore, scoreLoop, argmaxFirst, queryUnique, queryA, List.count, List.dedup,
      List.range, List.range.loop, casa, caza, vaca, exampleCorpus]
  exact ⟨h, C1_best_match_formula_and_max _ _ _ _ h⟩

/-- C2: `remove_repetitive_ngrams` keeps, in first-seen order, exactly the
elements whose total occurrence count in the input is 1 - an element occurring
twice or more anywhere in the input is excluded entirely, not reduced to one
occurrence - and on the bigram list of "banana" it returns `["ba"]`. -/
theorem C2_remove_repetitive_ngrams_globally_unique {α : Type} [DecidableEq α]
    (ngrams : List α) :
    remove_repetitive_ngrams ngrams = ngrams.filter (fun g => ngrams.count g = 1) ∧
    remove_repetitive_ngrams [['b','a'], ['a','n'], ['n','a'], ['a','n'], ['n','a']]
      = [['b','a']] :=
  ⟨remove_repetitive_ngrams_eq_filter ngrams, by decide⟩

/-- C3 fails on the code: with an index built with `n = 3` over the single
word "abc" and the query "abc", the source computes the query profile with the
generator's hardcoded default `n = 2` (src line 160) and returns score 0,
while the spec's consistent-n behaviour would return score 1. -/
theorem C3_counterexample_query_uses_default_n :
    pt_br_spell_checker (buildIndex [['a','b','c']] 3) ['a','b','c']
        = .ok (['a','b','c'], 0) ∧
    pt_br_spell_checker_consistent 3 (buildIndex [['a','b','c']] 3) ['a','b','c']
        = .ok (['a','b','c'], 1) := by
  constructor
  · norm_num +decide [pt_br_spell_checker, buildIndex, firstOccurrences, routine,
      ngrams_generator, remove_repetitive_ngrams, rrLoop, setInterCard, edit_distance,
      rawScore, scoreLoop, argmaxFirst, queryUnique, queryA, List.count, List.dedup,
      List.range, List.range.loop]
  · norm_num +decide [pt_br_spell_checker_consistent, buildIndex, firstOccurrences, routine,
      ngrams_generator, remove_repetitive_ngrams, rrLoop, setInterCard, edit_distance,
      rawScore, scoreLoop, argmaxFirst, List.count, List.dedup,
      List.range, List.range.loop]

/-- C3 amended: the query profile in `pt_br_spell_checker` is always computed
with the generator's default `n = 2`, independent of the `n` the index was
built with; hence index construction and query profiling use the same `n`
exactly when the index is built with the default `n = 2`. -/
theorem C3_amended_consistent_only_for_default_n (index : List (Word × Profile))
    (q : Word) :
    queryUnique q = remove_repetitive_ngrams (ngrams_generator q 2) ∧
    pt_br_spell_checker index q = pt_br_spell_checker_consistent 2 index q :=
  ⟨rfl, rfl⟩

/-- C4: for `n ≥ 1`, if the string is at least `n` long then
`ngrams_generator` emits the window `s[i : i+n]` for every `i` from 0 to
`len(s) - n` inclusive (so the output has length `len(s) - n + 1`); if the
string is shorter than `n` the output is empty and no error occurs. -/
theorem C4_ngrams_generator_windows (s : Word) (n : Nat) (hn : 1 ≤ n) :
    (n ≤ s.length →
      ngrams_generator s n
          = (List.range (s.length - n + 1)).map (fun i => (s.drop i).take n) ∧
      (ngrams_generator s n).length = s.length - n + 1) ∧
    (s.length < n → ngrams_generator s n = []) := by
  constructor
  · intro hle
    have ht : (((s.length : Int) - (n : Int) + 1)).toNat = s.length - n + 1 := by
      omega
    constructor
    · rw [ngrams_generator, ht]
    · rw [ngrams_generator, ht]
      simp
  · intro hlt
    have ht : (((s.length : Int) - (n : Int) + 1)).toNat = 0 := by omega
    rw [ngrams_generator, ht]
    simp

/-- Witness for C4 on the string "abc" with n = 2. -/
theorem C4_ngrams_generator_windows_witness :
    1 ≤ 2 ∧
    ((2 ≤ (['a','b','c'] : Word).length →
      ngrams_generator ['a','b','c'] 2
          = (List.range ((['a','b','c'] : Word).length - 2 + 1)).map
              (fun i => ((['a','b','c'] : Word).drop i).take 2) ∧
      (ngrams_generator ['a','b','c'] 2).length = (['a','b','c'] : Word).length - 2 + 1) ∧
    ((['a','b','c'] : Word).length < 2 → ngrams_generator ['a','b','c'] 2 = [])) :=
  ⟨by decide, C4_ngrams_generator_windows ['a','b','c'] 2 (by decide)⟩

/-- C5: if some candidate comparison has `A + B = 0` (the query and that
candidate both have zero unique n-grams), the matcher fails with the
division-by-zero error instead of returning a score for that candidate. -/
theorem C5_zero_denominator_raises (index : List (Word × Profile)) (q : Word)
    (h : ∃ wp ∈ index, queryA q + wp.2.B = 0) :
    pt_br_spell_checker index q = .error .divisionByZero := by
  have hz := scoreLoop_error_of_zero (queryA q) (queryUnique q) index h
  unfold pt_br_spell_checker
  rw [hz]

/-- Witness for C5: the query "a" has no bigrams (A = 0) and the indexed word
"b" has no bigrams either (B = 0), so the matcher raises. -/
theorem C5_zero_denominator_raises_witness :
    (∃ wp ∈ buildIndex [['b']] 2, queryA ['a'] + wp.2.B = 0) ∧
    pt_br_spell_checker (buildIndex [['b']] 2) ['a'] = .error .divisionByZero := by
  have h : ∃ wp ∈ buildIndex [['b']] 2, queryA ['a'] + wp.2.B = 0 := by decide
  exact ⟨h, C5_zero_denominator_raises _ _ h⟩

/-- C6: on an index built from the empty corpus, every call of the matcher
fails with the empty-index error (Python's `max` of an empty sequence) and
never returns a default pair. -/
theorem C6_empty_corpus_raises (n : Nat) (q : Word) :
    pt_br_spell_checker (buildIndex [] n) q = .error .emptyIndex := rfl

/-- C7: querying the matcher with a corpus word that has at least one unique
bigram (index built with the matching `n = 2`) succeeds with score exactly 1,
and on the spec's example corpus the query "caza" returns `("caza", 1.0)`. -/
theorem C7_identical_word_scores_one (corpus : List Word) (w : Word)
    (hw : w ∈ corpus) (hA : 1 ≤ queryA w) :
    (∃ w2, pt_br_spell_checker (buildIndex corpus 2) w = .ok (w2, 1)) ∧
    pt_br_spell_checker (buildIndex exampleCorpus 2) caza = .ok (caza, 1) := by
  constructor
  · have hpos : ∀ wp ∈ buildIndex corpus 2, queryA w + wp.2.B ≠ 0 := by
      intro wp hwp
      omega
    have hs := scoreLoop_ok_of_pos (queryA w) (queryUnique w) (buildIndex corpus 2) hpos
    have hself : (w, routine 2 w) ∈ buildIndex corpus 2 := mem_buildIndex corpus 2 w hw
    have hselfscore : rawScore (queryA w) (queryUnique w) (routine 2 w) = 1 :=
      self_rawScore_eq_one w hA
    have hmemres : (w, (1 : ℚ)) ∈ (buildIndex corpus 2).map
        (fun wp => (wp.1, rawScore (queryA w) (queryUnique w) wp.2)) := by
      rw [List.mem_map]
      exact ⟨(w, routine 2 w), hself, by simp [hselfscore]⟩
    obtain ⟨res1, res2, hres⟩ : ∃ r1 rrest, (buildIndex corpus 2).map
        (fun wp => (wp.1, rawScore (queryA w) (queryUnique w) wp.2)) = r1 :: rrest := by
      cases hcase : (buildIndex corpus 2).map
          (fun wp => (wp.1, rawScore (queryA w) (queryUnique w) wp.2)) with
      | nil =>
        rw [hcase] at hmemres
        exact absurd hmemres (List.not_mem_nil _)
      | cons a l => exact ⟨a, l, rfl⟩
    obtain ⟨b, hb⟩ := argmaxFirst_cons_isSome res1 res2
    have hb' : argmaxFirst ((buildIndex corpus 2).map
        (fun wp => (wp.1, rawScore (queryA w) (queryUnique w) wp.2))) = some b := by
      rw [hres]
      exact hb
    rcases b with ⟨w2, s⟩
    have hle1 : 1 ≤ s := argmaxFirst_le hb' (w, 1) hmemres
    have hle2 : s ≤ 1 := by
      have hbmem := argmaxFirst_mem hb'
      rw [List.mem_map] at hbmem
      obtain ⟨wp, hwp, heq⟩ := hbmem
      have h2 : rawScore (queryA w) (queryUnique w) wp.2 = s := congrArg Prod.snd heq
      rw [← h2]
      refine rawScore_le_one _ _ _ rfl ?_ (hpos wp hwp)
      rw [buildIndex_entry corpus 2 wp hwp]
      exact le_of_eq rfl
    have hseq : s = 1 := le_antisymm hle2 hle1
    refine ⟨w2, ?_⟩
    rw [pt_br_spell_checker_ok_iff]
    refine ⟨_, hs, ?_⟩
    rw [← hseq]
    exact hb'
  · norm_num +decide [pt_br_spell_checker, buildIndex, firstOccurrences, routine,
      ngrams_generator, remove_repetitive_ngrams, rrLoop, setInterCard, edit_distance,
      rawScore, scoreLoop, argmaxFirst, queryUnique, queryA, List.count, List.dedup,
      List.range, List.range.loop, casa, caza, vaca, exampleCorpus]

/-- Witness for C7 on the one-word corpus `["ab"]` queried with "ab". -/
theorem C7_identical_word_scores_one_witness :
    (['a','b'] : Word) ∈ [(['a','b'] : Word)] ∧ 1 ≤ queryA ['a','b'] ∧
    ((∃ w2, pt_br_spell_checker (buildIndex [['a','b']] 2) ['a','b'] = .ok (w2, 1)) ∧
      pt_br_spell_checker (buildIndex exampleCorpus 2) caza = .ok (caza, 1)) :=
  ⟨by decide, by decide,
    C7_identical_word_scores_one [['a','b']] ['a','b'] (by decide) (by decide)⟩

/-- C8: when the matcher succeeds, the returned word is the first one in
index iteration order attaining the maximal score: the index splits around
the returned word with every earlier candidate scoring strictly less and
every later candidate scoring at most the returned score. -/
theorem C8_tie_break_first_maximum (index : List (Word × Profile)) (q : Word)
    (w : Word) (s : ℚ)
    (h : pt_br_spell_checker index q = .ok (w, s)) :
    ∃ (i1 i2 : List (Word × Profile)) (p : Profile),
      index = i1 ++ (w, p) :: i2 ∧
      s = rawScore (queryA q) (queryUnique q) p ∧
      (∀ wp ∈ i1, rawScore (queryA q) (queryUnique q) wp.2 < s) ∧
      (∀ wp ∈ i2, rawScore (queryA q) (queryUnique q) wp.2 ≤ s) := by
  obtain ⟨result, hs, ha⟩ := (pt_br_spell_checker_ok_iff index q w s).mp h
  obtain ⟨hres, -⟩ := scoreLoop_ok_inv _ _ index result hs
  subst hres
  obtain ⟨l1, l2, hsplit, hlt, hle⟩ := argmaxFirst_spec _ _ ha
  rw [List.map_eq_append_iff] at hsplit
  obtain ⟨i1, irest, hidx, hmap1, hmap2⟩ := hsplit
  rw [List.map_eq_cons_iff] at hmap2
  obtain ⟨x, i2, hrest, hx, hmap3⟩ := hmap2
  rcases x with ⟨wx, px⟩
  have hwx : wx = w := congrArg Prod.fst hx
  have hsx : rawScore (queryA q) (queryUnique q) px = s := congrArg Prod.snd hx
  refine ⟨i1, i2, px, ?_, hsx.symm, ?_, ?_⟩
  · rw [hidx, hrest, hwx]
  · intro wp hwp
    have hmem1 : (wp.1, rawScore (queryA q) (queryUnique q) wp.2) ∈ l1 := by
      rw [← hmap1, List.mem_map]
      exact ⟨wp, hwp, rfl⟩
    exact hlt _ hmem1
  · intro wp hwp
    have hmem2 : (wp.1, rawScore (queryA q) (queryUnique q) wp.2) ∈ l2 := by
      rw [← hmap3, List.mem_map]
      exact ⟨wp, hwp, rfl⟩
    exact hle _ hmem2

/-- Witness for C8: the index over `["ab", "cd"]` queried with "ef" gives
both candidates score 0, a tie resolved in favour of the first word "ab". -/
theorem C8_tie_break_first_maximum_witness :
    ∃ (i1 i2 : List (Word × Profile)) (p : Profile),
      buildIndex [['a','b'], ['c','d']] 2 = i1 ++ ((['a','b'] : Word), p) :: i2 ∧
      (0 : ℚ) = rawScore (queryA ['e','f']) (queryUnique ['e','f']) p ∧
      (∀ wp ∈ i1, rawScore (queryA ['e','f']) (queryUnique ['e','f']) wp.2 < 0) ∧
      (∀ wp ∈ i2, rawScore (queryA ['e','f']) (queryUnique ['e','f']) wp.2 ≤ 0) :=
  C8_tie_break_first_maximum _ _ _ _ (by
    norm_num +decide [pt_br_spell_checker, buildIndex, firstOccurrences, routine,
      ngrams_generator, remove_repetitive_ngrams, rrLoop, setInterCard, edit_distance,
      rawScore, scoreLoop, argmaxFirst, queryUnique, queryA, List.count, List.dedup,
      List.range, List.range.loop])

/-- C9: when every candidate comparison has a positive denominator
`A + B > 0` and the matcher succeeds, the returned score lies in the closed
interval [0, 1] (since `C ≤ min(A, B)` gives `2*C ≤ A + B`). -/
theorem C9_score_in_unit_interval (words : List Word) (n : Nat) (q : Word)
    (w : Word) (s : ℚ)
    (hpos : ∀ wp ∈ buildIndex words n, queryA q + wp.2.B ≠ 0)
    (h : pt_br_spell_checker (buildIndex words n) q = .ok (w, s)) :
    0 ≤ s ∧ s ≤ 1 := by
  obtain ⟨result, hs, ha⟩ := (pt_br_spell_checker_ok_iff _ q w s).mp h
  obtain ⟨hres, -⟩ := scoreLoop_ok_inv _ _ _ result hs
  subst hres
  have hbmem := argmaxFirst_mem ha
  rw [List.mem_map] at hbmem
  obtain ⟨wp, hwp, heq⟩ := hbmem
  have h2 : rawScore (queryA q) (queryUnique q) wp.2 = s := congrArg Prod.snd heq
  constructor
  · rw [← h2]
    exact rawScore_nonneg _ _ _
  · rw [← h2]
    refine rawScore_le_one _ _ _ rfl ?_ (hpos wp hwp)
    rw [buildIndex_entry words n wp hwp]
    exact le_of_eq rfl

/-- Witness for C9 on the one-word corpus `["ab"]` queried with "ab". -/
theorem C9_score_in_unit_interval_witness :
    (∀ wp ∈ buildIndex [['a','b']] 2, queryA ['a','b'] + wp.2.B ≠ 0) ∧
    (0 ≤ (1 : ℚ) ∧ (1 : ℚ) ≤ 1) := by
  have hpos : ∀ wp ∈ buildIndex [['a','b']] 2, queryA ['a','b'] + wp.2.B ≠ 0 := by
    decide
  have h : pt_br_spell_checker (buildIndex [['a','b']] 2) ['a','b']
      = .ok (['a','b'], 1) := by
    norm_num +decide [pt_br_spell_checker, buildIndex, firstOccurrences, routine,
      ngrams_generator, remove_repetitive_ngrams, rrLoop, setInterCard, edit_distance,
      rawScore, scoreLoop, argmaxFirst, queryUnique, queryA, List.count, List.dedup,
      List.range, List.range.loop]
  exact ⟨hpos, C9_score_in_unit_interval _ _ _ _ _ hpos h⟩

/-- C10: `remove_repetitive_ngrams` is idempotent, because every element of
its output occurs exactly once in that output. -/
theorem C10_remove_repetitive_ngrams_idempotent {α : Type} [DecidableEq α]
    (xs : List α) :
    remove_repetitive_ngrams (remove_repetitive_ngrams xs)
      = remove_repetitive_ngrams xs := by
  have hnd := remove_repetitive_ngrams_nodup xs
  rw [remove_repetitive_ngrams_eq_filter (remove_repetitive_ngrams xs)]
  apply List.filter_eq_self.mpr
  intro a ha
  have h1 : (remove_repetitive_ngrams xs).count a = 1 := by
    have hle := List.nodup_iff_count_le_one.mp hnd a
    have hge : 0 < (remove_repetitive_ngrams xs).count a := List.count_pos_iff.mpr ha
    omega
  simp [h1]
